import Mathlib

/-!
Verification of the keyword-aggregation core of the tech-market-dashboard
repository (src/dashboard.py, src/eda.py).

The embedding below translates the Python source:
* `tally` models `collections.Counter` built from an iterable: a list of
  (key, count) entries in first-seen key order, one entry per distinct key.
* `most_common` models `Counter.most_common(n)`: a stable sort of the
  entries by count descending, truncated to `n` entries (CPython's
  `heapq.nlargest` returns `[]` for every `n ≤ 0` and is stable, i.e.
  equivalent to `sorted(items, key=count, reverse=True)[:n]`).
* `get_top_skills` models `dashboard.get_top_skills` (dashboard.py:72-76).
* `record_pairs` / `skill_pairs` / `pair_counts` model the inline pair
  aggregation of `dashboard.main` (dashboard.py:200-208).
* `is_remote_dashboard` models dashboard.py:62,
  `is_remote_eda` models eda.py:107-108.
-/

set_option maxHeartbeats 1000000

namespace TechDash

variable {α : Type}

/-- Ordering used by `Counter.most_common`: entry `p` may precede entry `q`
when `p`'s count is at least `q`'s (descending by count). -/
def byCount (p q : α × Nat) : Prop := q.2 ≤ p.2

instance : DecidableRel (@byCount α) := fun p q => Nat.decLe q.2 p.2

instance : IsTotal (α × Nat) byCount := ⟨fun p q => Nat.le_total q.2 p.2⟩

instance : IsTrans (α × Nat) byCount := ⟨fun _ _ _ h1 h2 => Nat.le_trans h2 h1⟩

/-- One step of building a `Counter` from an iterable: `d[k] = d.get(k, 0) + 1`
with dict insertion order (a new key is appended at the end). -/
def step [DecidableEq α] (acc : List (α × Nat)) (k : α) : List (α × Nat) :=
  if acc.any (fun p => decide (p.1 = k)) then
    acc.map (fun p => if p.1 = k then (p.1, p.2 + 1) else p)
  else acc ++ [(k, 1)]

/-- `Counter(xs).items()`: (key, count) entries in first-seen key order. -/
def tally [DecidableEq α] (xs : List α) : List (α × Nat) := xs.foldl step []

/-- `Counter.most_common(n)` for an integer `n`: stable descending sort by
count, truncated to `n` entries (empty for `n ≤ 0`, exactly as
`heapq.nlargest` behaves). -/
def most_common (c : List (α × Nat)) (n : Int) : List (α × Nat) :=
  (List.insertionSort byCount c).take n.toNat

/-- `dashboard.get_top_skills(df, n)`: flatten every record's keyword list
into one list and return the `n` most common keywords with their counts. -/
def get_top_skills (records : List (List String)) (n : Int) : List (String × Nat) :=
  most_common (tally records.flatten) n

/-- Python's `<=` on strings: lexicographic comparison of the character
sequences by code point. -/
def charListLE : List Char → List Char → Bool
  | [], _ => true
  | _ :: _, [] => false
  | a :: as, b :: bs => if a = b then charListLE as bs else decide (a < b)

/-- Python's `<` on strings: strict lexicographic comparison of the character
sequences by code point. -/
def charListLT : List Char → List Char → Bool
  | [], [] => false
  | [], _ :: _ => true
  | _ :: _, [] => false
  | a :: as, b :: bs => if a = b then charListLT as bs else decide (a < b)

/-- Python `tuple(sorted([a, b]))` for two strings: the pair in
lexicographically non-decreasing order. -/
def canonPair (a b : String) : String × String :=
  if charListLE a.toList b.toList then (a, b) else (b, a)

/-- The pairs one record contributes in `dashboard.main` (dashboard.py:202-206):
for a keyword list of length at least 2, all index pairs `i < j` yield the
canonicalized pair of the keywords at positions `i` and `j`. -/
def record_pairs (skills : List String) : List (String × String) :=
  if 2 ≤ skills.length then
    (List.range skills.length).flatMap (fun i =>
      (List.range' (i + 1) (skills.length - (i + 1))).map (fun j =>
        canonPair (skills.getD i "") (skills.getD j "")))
  else []

/-- The flat `skill_pairs` list of `dashboard.main` (dashboard.py:200-206):
every record appends its own pairs. -/
def skill_pairs (records : List (List String)) : List (String × String) :=
  records.flatMap record_pairs

/-- `Counter(skill_pairs).most_common(n)` of `dashboard.main` (dashboard.py:208). -/
def pair_counts (records : List (List String)) (n : Int) :
    List ((String × String) × Nat) :=
  most_common (tally (skill_pairs records)) n

/-- The characters of a string, lower-cased (`str.lower()`). -/
def lowerChars (s : String) : List Char := s.toList.map Char.toLower

/-- Whether the first list is an initial segment of the second. -/
def listStartsWith : List Char → List Char → Bool
  | [], _ => true
  | _ :: _, [] => false
  | p :: ps, c :: cs => (p == c) && listStartsWith ps cs

/-- Whether `pat` occurs as a contiguous sublist (Python `pat in text` /
`str.contains` with a literal pattern). -/
def listHasSub (pat : List Char) : List Char → Bool
  | [] => pat.isEmpty
  | c :: cs => listStartsWith pat (c :: cs) || listHasSub pat cs

/-- dashboard.py:62: `df['location'].fillna('').str.lower().str.contains('remote')`.
An absent location becomes the empty string. -/
def is_remote_dashboard (location : Option String) : Bool :=
  listHasSub "remote".toList (lowerChars (location.getD ""))

/-- eda.py:106: the remote indicator keywords. -/
def remote_keywords : List String :=
  ["remote", "anywhere", "global", "worldwide", "work from home", "wfh"]

/-- eda.py:107-108: `df['location'].str.contains('|'.join(remote_keywords),
case=False, na=False)`: an absent location yields `false`; otherwise the
location matches when any of the keywords occurs in it case-insensitively. -/
def is_remote_eda (location : Option String) : Bool :=
  match location with
  | none => false
  | some s => remote_keywords.any (fun k => listHasSub k.toList (lowerChars s))

/-- Spec-side notion "text contains `pat` case-insensitively": the lowered
characters of `s` contain the characters of `pat` contiguously. -/
def containsCI (s : String) (pat : String) : Prop :=
  ∃ l r, lowerChars s = l ++ pat.toList ++ r

/-! ### Properties of `tally` (the `Counter` model) -/

/-- The count the entry list `acc` records for key `k` (0 when absent). -/
def countVal [DecidableEq α] (acc : List (α × Nat)) (k : α) : Nat :=
  ((acc.filter (fun p => decide (p.1 = k))).map Prod.snd).sum

lemma countVal_cons [DecidableEq α] (p : α × Nat) (acc : List (α × Nat)) (k : α) :
    countVal (p :: acc) k = (if p.1 = k then p.2 else 0) + countVal acc k := by
  by_cases h : p.1 = k <;> simp [countVal, List.filter_cons, h]

lemma countVal_append [DecidableEq α] (l m : List (α × Nat)) (k : α) :
    countVal (l ++ m) k = countVal l k + countVal m k := by
  simp [countVal, List.filter_append]

lemma countVal_eq_zero [DecidableEq α] {acc : List (α × Nat)} {k : α}
    (h : k ∉ acc.map Prod.fst) : countVal acc k = 0 := by
  induction acc with
  | nil => rfl
  | cons p acc ih =>
    simp only [List.map_cons, List.mem_cons, not_or] at h
    rw [countVal_cons, if_neg (fun e => h.1 e.symm), ih h.2]

lemma step_any_iff [DecidableEq α] (acc : List (α × Nat)) (k : α) :
    (acc.any (fun p => decide (p.1 = k)) = true) ↔ k ∈ acc.map Prod.fst := by
  simp only [List.any_eq_true, decide_eq_true_eq, List.mem_map]

lemma map_step_id [DecidableEq α] {acc : List (α × Nat)} {k : α}
    (h : k ∉ acc.map Prod.fst) :
    acc.map (fun p => if p.1 = k then (p.1, p.2 + 1) else p) = acc := by
  induction acc with
  | nil => rfl
  | cons p acc ih =>
    simp only [List.map_cons, List.mem_cons, not_or] at h
    have hne : ¬ p.1 = k := fun e => h.1 e.symm
    simp only [List.map_cons, if_neg hne, ih h.2]

lemma map_fst_bump [DecidableEq α] (acc : List (α × Nat)) (k : α) :
    (acc.map fun p => if p.1 = k then (p.1, p.2 + 1) else p).map Prod.fst =
      acc.map Prod.fst := by
  rw [List.map_map]
  exact List.map_congr_left (fun p _ => by by_cases hp : p.1 = k <;> simp [hp])

lemma countVal_map_bump [DecidableEq α] {acc : List (α × Nat)} {k : α}
    (nd : (acc.map Prod.fst).Nodup) (hmem : k ∈ acc.map Prod.fst) (k' : α) :
    countVal (acc.map fun p => if p.1 = k then (p.1, p.2 + 1) else p) k' =
      countVal acc k' + (if k' = k then 1 else 0) := by
  induction acc with
  | nil => simp at hmem
  | cons p acc ih =>
    simp only [List.map_cons, List.nodup_cons] at nd
    rcases List.mem_cons.1 hmem with hk | hk
    · have hk' : k ∉ acc.map Prod.fst := hk ▸ nd.1
      simp only [List.map_cons, if_pos hk.symm, map_step_id hk']
      rw [countVal_cons, countVal_cons]
      by_cases he : k' = k
      · rw [he, if_pos hk.symm, if_pos hk.symm, if_pos (rfl : k = k)]
        omega
      · have hne : ¬ p.1 = k' := fun e => he (hk.trans e).symm
        rw [if_neg hne, if_neg hne, if_neg he]
        omega
    · by_cases hpk : p.1 = k
      · exact absurd (hpk ▸ hk) nd.1
      · simp only [List.map_cons, if_neg hpk]
        rw [countVal_cons, countVal_cons, ih nd.2 hk]
        omega

lemma sum_map_bump [DecidableEq α] {acc : List (α × Nat)} {k : α}
    (nd : (acc.map Prod.fst).Nodup) (hmem : k ∈ acc.map Prod.fst) :
    (((acc.map fun p => if p.1 = k then (p.1, p.2 + 1) else p).map Prod.snd)).sum =
      ((acc.map Prod.snd)).sum + 1 := by
  induction acc with
  | nil => simp at hmem
  | cons p acc ih =>
    simp only [List.map_cons, List.nodup_cons] at nd
    rcases List.mem_cons.1 hmem with hk | hk
    · have hk' : k ∉ acc.map Prod.fst := hk ▸ nd.1
      simp only [List.map_cons, if_pos hk.symm, map_step_id hk', List.sum_cons]
      omega
    · by_cases hpk : p.1 = k
      · exact absurd (hpk ▸ hk) nd.1
      · simp only [List.map_cons, if_neg hpk, List.sum_cons, ih nd.2 hk]
        omega

lemma map_fst_step [DecidableEq α] (acc : List (α × Nat)) (k : α) :
    (step acc k).map Prod.fst =
      if k ∈ acc.map Prod.fst then acc.map Prod.fst else acc.map Prod.fst ++ [k] := by
  unfold step
  by_cases h : k ∈ acc.map Prod.fst
  · rw [if_pos ((step_any_iff acc k).2 h), if_pos h, map_fst_bump]
  · rw [if_neg (fun hb => h ((step_any_iff acc k).1 hb)), if_neg h, List.map_append]
    rfl

lemma nodup_step [DecidableEq α] {acc : List (α × Nat)} (k : α)
    (nd : (acc.map Prod.fst).Nodup) : ((step acc k).map Prod.fst).Nodup := by
  rw [map_fst_step]
  by_cases h : k ∈ acc.map Prod.fst
  · simpa [h] using nd
  · simp [h, List.nodup_append, nd]

lemma countVal_step [DecidableEq α] (acc : List (α × Nat)) (k k' : α)
    (nd : (acc.map Prod.fst).Nodup) :
    countVal (step acc k) k' = countVal acc k' + (if k' = k then 1 else 0) := by
  unfold step
  by_cases h : k ∈ acc.map Prod.fst
  · rw [if_pos ((step_any_iff acc k).2 h)]
    exact countVal_map_bump nd h k'
  · rw [if_neg (fun hb => h ((step_any_iff acc k).1 hb)), countVal_append, countVal_cons]
    have h0 : countVal ([] : List (α × Nat)) k' = 0 := rfl
    by_cases he : k' = k
    · rw [h0, he, if_pos (rfl : k = k)]
    · rw [h0, if_neg (fun e => he e.symm), if_neg he]

lemma sum_snd_step [DecidableEq α] (acc : List (α × Nat)) (k : α)
    (nd : (acc.map Prod.fst).Nodup) :
    ((step acc k).map Prod.snd).sum = ((acc.map Prod.snd)).sum + 1 := by
  unfold step
  by_cases h : k ∈ acc.map Prod.fst
  · rw [if_pos ((step_any_iff acc k).2 h)]
    exact sum_map_bump nd h
  · rw [if_neg (fun hb => h ((step_any_iff acc k).1 hb)), List.map_append]
    simp

lemma foldl_step_spec [DecidableEq α] (xs : List α) :
    ∀ acc : List (α × Nat), (acc.map Prod.fst).Nodup →
      ((xs.foldl step acc).map Prod.fst).Nodup ∧
      (∀ k, countVal (xs.foldl step acc) k = countVal acc k + xs.count k) ∧
      (∀ k, k ∈ (xs.foldl step acc).map Prod.fst ↔ k ∈ acc.map Prod.fst ∨ k ∈ xs) ∧
      ((xs.foldl step acc).map Prod.snd).sum = ((acc.map Prod.snd)).sum + xs.length := by
  induction xs with
  | nil =>
    intro acc nd
    exact ⟨nd, fun k => by simp, fun k => by simp, by simp⟩
  | cons x xs ih =>
    intro acc nd
    obtain ⟨h1, h2, h3, h4⟩ := ih (step acc x) (nodup_step x nd)
    rw [List.foldl_cons]
    refine ⟨h1, fun k => ?_, fun k => ?_, ?_⟩
    · rw [h2 k, countVal_step acc x k nd, List.count_cons]
      by_cases hkx : k = x
      · simp [hkx]
        omega
      · simp [hkx]
        exact fun e => hkx e.symm
    · rw [h3 k, map_fst_step]
      by_cases hm : x ∈ acc.map Prod.fst
      · rw [if_pos hm]
        constructor
        · rintro (h | h)
          · exact Or.inl h
          · exact Or.inr (List.mem_cons_of_mem x h)
        · rintro (h | h)
          · exact Or.inl h
          · rcases List.mem_cons.1 h with rfl | h
            · exact Or.inl hm
            · exact Or.inr h
      · rw [if_neg hm]
        simp only [List.mem_append, List.mem_cons, List.mem_singleton]
        tauto
    · rw [h4, sum_snd_step acc x nd, List.length_cons]
      omega

lemma tally_nodup [DecidableEq α] (xs : List α) : ((tally xs).map Prod.fst).Nodup :=
  (foldl_step_spec xs [] (by simp)).1

lemma countVal_tally [DecidableEq α] (xs : List α) (k : α) :
    countVal (tally xs) k = xs.count k := by
  have h := (foldl_step_spec xs [] (by simp)).2.1 k
  have h0 : countVal ([] : List (α × Nat)) k = 0 := rfl
  rw [tally, h, h0, Nat.zero_add]

lemma mem_keys_tally [DecidableEq α] (xs : List α) (k : α) :
    k ∈ (tally xs).map Prod.fst ↔ k ∈ xs := by
  have h := (foldl_step_spec xs [] (by simp)).2.2.1 k
  rw [tally, h]
  simp

lemma sum_snd_tally [DecidableEq α] (xs : List α) :
    ((tally xs).map Prod.snd).sum = xs.length := by
  have h := (foldl_step_spec xs [] (by simp)).2.2.2
  rw [tally, h]
  simp

lemma countVal_of_mem [DecidableEq α] {acc : List (α × Nat)} {p : α × Nat}
    (nd : (acc.map Prod.fst).Nodup) (hp : p ∈ acc) : countVal acc p.1 = p.2 := by
  induction acc with
  | nil => simp at hp
  | cons q acc ih =>
    simp only [List.map_cons, List.nodup_cons] at nd
    rcases List.mem_cons.1 hp with rfl | hp'
    · rw [countVal_cons, if_pos rfl, countVal_eq_zero nd.1]
      omega
    · have hq : ¬ q.1 = p.1 := by
        intro e
        exact nd.1 (by rw [e]; exact List.mem_map.2 ⟨p, hp', rfl⟩)
      rw [countVal_cons, if_neg hq, ih nd.2 hp']
      omega

lemma mem_tally_iff [DecidableEq α] (xs : List α) (p : α × Nat) :
    p ∈ tally xs ↔ p.1 ∈ xs ∧ p.2 = xs.count p.1 := by
  constructor
  · intro hp
    refine ⟨(mem_keys_tally xs p.1).1 (List.mem_map.2 ⟨p, hp, rfl⟩), ?_⟩
    rw [← countVal_tally xs p.1, countVal_of_mem (tally_nodup xs) hp]
  · rintro ⟨h1, h2⟩
    obtain ⟨q, hq, hqe⟩ := List.mem_map.1 ((mem_keys_tally xs p.1).2 h1)
    have hq2 : q.2 = p.2 := by
      rw [h2, ← countVal_tally xs p.1, ← hqe, countVal_of_mem (tally_nodup xs) hq]
    have hqp : q = p := by
      rcases p with ⟨p1, p2⟩
      rcases q with ⟨q1, q2⟩
      simp only at hqe hq2
      rw [hqe, hq2]
    exact hqp ▸ hq

lemma tally_pos [DecidableEq α] {xs : List α} {p : α × Nat} (hp : p ∈ tally xs) :
    0 < p.2 := by
  obtain ⟨h1, h2⟩ := (mem_tally_iff xs p).1 hp
  rw [h2]
  exact List.count_pos_iff.2 h1

lemma tally_length [DecidableEq α] (xs : List α) :
    (tally xs).length = xs.toFinset.card := by
  have hts : ((tally xs).map Prod.fst).toFinset = xs.toFinset := by
    ext a
    rw [List.mem_toFinset, List.mem_toFinset, mem_keys_tally]
  calc (tally xs).length = ((tally xs).map Prod.fst).length := by rw [List.length_map]
    _ = ((tally xs).map Prod.fst).toFinset.card :=
        (List.toFinset_card_of_nodup (tally_nodup xs)).symm
    _ = xs.toFinset.card := by rw [hts]

lemma tally_perm [DecidableEq α] {xs ys : List α} (h : xs.Perm ys) :
    (tally xs).Perm (tally ys) := by
  have nd1 : (tally xs).Nodup := List.Nodup.of_map Prod.fst (tally_nodup xs)
  have nd2 : (tally ys).Nodup := List.Nodup.of_map Prod.fst (tally_nodup ys)
  refine (List.perm_ext_iff_of_nodup nd1 nd2).2 (fun p => ?_)
  rw [mem_tally_iff, mem_tally_iff, h.mem_iff, h.count_eq]

lemma flatten_perm {l₁ l₂ : List (List α)} (h : l₁.Perm l₂) :
    l₁.flatten.Perm l₂.flatten := by
  induction h with
  | nil => exact List.Perm.refl _
  | cons x _ ih =>
    simp only [List.flatten_cons]
    exact List.Perm.append_left x ih
  | swap x y l =>
    simp only [List.flatten_cons]
    rw [← List.append_assoc, ← List.append_assoc]
    exact List.Perm.append_right _ List.perm_append_comm
  | trans _ _ ih₁ ih₂ => exact ih₁.trans ih₂

/-! ### Properties of `most_common` -/

lemma most_common_sorted (c : List (α × Nat)) (n : Int) :
    List.Sorted byCount (most_common c n) :=
  List.Pairwise.sublist (List.take_sublist _ _) (List.sorted_insertionSort byCount c)

lemma mem_most_common {c : List (α × Nat)} {n : Int} {p : α × Nat}
    (hp : p ∈ most_common c n) : p ∈ c :=
  (List.perm_insertionSort byCount c).subset
    ((List.take_sublist _ _).subset hp)

lemma most_common_length (c : List (α × Nat)) (n : Int) :
    (most_common c n).length = min n.toNat c.length := by
  rw [most_common, List.length_take, (List.perm_insertionSort byCount c).length_eq]

lemma most_common_all {c : List (α × Nat)} {n : Int}
    (h : c.length ≤ n.toNat) : (most_common c n).Perm c := by
  rw [most_common, List.take_of_length_le]
  · exact List.perm_insertionSort byCount c
  · rw [(List.perm_insertionSort byCount c).length_eq]
    exact h

/-! ### Properties of the pair aggregation -/

lemma charListLE_total (a b : List Char) :
    charListLE a b = true ∨ charListLE b a = true := by
  induction a generalizing b with
  | nil => left; rfl
  | cons x xs ih =>
    cases b with
    | nil => right; rfl
    | cons y ys =>
      by_cases hxy : x = y
      · subst hxy
        rcases ih ys with h | h
        · left; simpa [charListLE] using h
        · right; simpa [charListLE] using h
      · by_cases hlt : x < y
        · left; simp [charListLE, hxy, hlt]
        · right
          have hyx : y < x := by
            rcases lt_trichotomy x y with h | h | h
            · exact absurd h hlt
            · exact absurd h hxy
            · exact h
          have hne : ¬ y = x := fun e => hxy e.symm
          show charListLE (y :: ys) (x :: xs) = true
          simp only [charListLE, if_neg hne]
          exact decide_eq_true hyx

lemma canonPair_le (a b : String) :
    charListLE (canonPair a b).1.toList (canonPair a b).2.toList = true := by
  unfold canonPair
  by_cases h : charListLE a.toList b.toList = true
  · rw [if_pos h]
    exact h
  · rw [if_neg h]
    rcases charListLE_total a.toList b.toList with h' | h'
    · exact absurd h' h
    · exact h'

lemma record_pairs_short {skills : List String} (h : skills.length ≤ 1) :
    record_pairs skills = [] := by
  unfold record_pairs
  rw [if_neg (by omega)]

lemma mem_record_pairs {skills : List String} {p : String × String}
    (hp : p ∈ record_pairs skills) :
    ∃ i j, i < j ∧ j < skills.length ∧
      p = canonPair (skills.getD i "") (skills.getD j "") := by
  unfold record_pairs at hp
  by_cases h2 : 2 ≤ skills.length
  · rw [if_pos h2] at hp
    obtain ⟨i, hi, hp⟩ := List.mem_flatMap.1 hp
    obtain ⟨j, hj, rfl⟩ := List.mem_map.1 hp
    have hi' : i < skills.length := List.mem_range.1 hi
    obtain ⟨t, ht, rfl⟩ := List.mem_range'.1 hj
    exact ⟨i, _, by omega, by omega, rfl⟩
  · rw [if_neg h2] at hp
    simp at hp

lemma two_mul_sum_range (k : Nat) : 2 * (List.range k).sum = k * (k - 1) := by
  induction k with
  | zero => rfl
  | succ m ih =>
    rw [List.range_succ, List.sum_append, List.sum_cons, List.sum_nil]
    cases m with
    | zero => rfl
    | succ n =>
      have he : 2 * ((List.range (n + 1)).sum + (n + 1 + 0)) =
          2 * (List.range (n + 1)).sum + 2 * (n + 1) := by ring
      rw [he, ih, Nat.succ_sub_one, Nat.succ_sub_one]
      ring

lemma sum_range_lengths (k : Nat) :
    ((List.range k).map (fun i => k - (i + 1))).sum = k * (k - 1) / 2 := by
  have h1 : ((List.range k).map (fun i => k - (i + 1))).sum = (List.range k).sum := by
    have he : (List.range k).map (fun i => k - (i + 1)) =
        (List.range' 0 k).reverse := by
      rw [List.reverse_range']
      exact (List.map_congr_left (fun i _ => by omega)).symm
    rw [he, ← List.range_eq_range', List.sum_reverse]
  rw [h1, ← two_mul_sum_range k, Nat.mul_div_cancel_left _ (by norm_num : 0 < 2)]

lemma record_pairs_length (skills : List String) :
    (record_pairs skills).length = skills.length * (skills.length - 1) / 2 := by
  by_cases h2 : 2 ≤ skills.length
  · unfold record_pairs
    rw [if_pos h2, List.flatMap_def, List.length_flatten, List.map_map]
    have he : ((List.range skills.length).map
        (List.length ∘ fun i => (List.range' (i + 1) (skills.length - (i + 1))).map
          (fun j => canonPair (skills.getD i "") (skills.getD j "")))) =
        (List.range skills.length).map (fun i => skills.length - (i + 1)) := by
      exact List.map_congr_left (fun i _ => by
        simp [Function.comp, List.length_map, List.length_range'])
    rw [he, sum_range_lengths]
  · have h01 : skills.length = 0 ∨ skills.length = 1 := by omega
    rw [record_pairs_short (by omega)]
    rcases h01 with h | h <;> rw [h] <;> rfl

lemma mem_skill_pairs {records : List (List String)} {p : String × String}
    (hp : p ∈ skill_pairs records) :
    ∃ r, r ∈ records ∧ p ∈ record_pairs r :=
  List.mem_flatMap.1 hp

lemma pair_entry_le {records : List (List String)} {n : Int}
    {p : (String × String) × Nat} (hp : p ∈ pair_counts records n) :
    charListLE p.1.1.toList p.1.2.toList = true := by
  have h1 : p ∈ tally (skill_pairs records) := mem_most_common hp
  have h2 : p.1 ∈ skill_pairs records := ((mem_tally_iff _ _).1 h1).1
  obtain ⟨r, _, hpr⟩ := mem_skill_pairs h2
  obtain ⟨i, j, _, _, he⟩ := mem_record_pairs hpr
  rw [he]
  exact canonPair_le _ _

/-! ### Substring containment -/

lemma listStartsWith_iff (p l : List Char) :
    listStartsWith p l = true ↔ ∃ t, l = p ++ t := by
  induction p generalizing l with
  | nil => simp [listStartsWith]
  | cons c cs ih =>
    cases l with
    | nil => simp [listStartsWith]
    | cons d ds =>
      simp only [listStartsWith, Bool.and_eq_true, beq_iff_eq, ih]
      constructor
      · rintro ⟨rfl, t, rfl⟩
        exact ⟨t, rfl⟩
      · rintro ⟨t, ht⟩
        injection ht with h1 h2
        exact ⟨h1.symm, t, h2⟩

lemma listHasSub_iff (p l : List Char) :
    listHasSub p l = true ↔ ∃ u v, l = u ++ p ++ v := by
  induction l with
  | nil =>
    rw [listHasSub]
    constructor
    · intro h
      exact ⟨[], [], by simp [List.isEmpty_iff.1 h]⟩
    · rintro ⟨u, v, he⟩
      have he' := he.symm
      simp only [List.append_eq_nil] at he'
      rw [List.isEmpty_iff]
      exact he'.1.2
  | cons c cs ih =>
    rw [listHasSub, Bool.or_eq_true, listStartsWith_iff, ih]
    constructor
    · rintro (⟨t, ht⟩ | ⟨u, v, rfl⟩)
      · exact ⟨[], t, by simpa using ht⟩
      · exact ⟨c :: u, v, rfl⟩
    · rintro ⟨u, v, he⟩
      cases u with
      | nil =>
        left
        exact ⟨v, by simpa using he⟩
      | cons a us =>
        right
        injection he with h1 h2
        exact ⟨us, v, h2⟩

/-! ### Claim theorems -/

/-- C1: the pair aggregation of `dashboard.main` pairs keywords only within a
single record, by index combination `i < j`: a record with at most one keyword
contributes no pairs, a record with `k` keywords contributes exactly
`k*(k-1)/2` pair increments, the total number of pair increments is the sum of
the per-record contributions, and every aggregated pair arises from two
positions of a single record of the input. -/
theorem pairs_within_single_record (records : List (List String)) :
    (∀ r : List String, r.length ≤ 1 → record_pairs r = []) ∧
    (∀ r : List String, (record_pairs r).length = r.length * (r.length - 1) / 2) ∧
    (skill_pairs records).length =
      (records.map (fun r => r.length * (r.length - 1) / 2)).sum ∧
    (∀ p ∈ skill_pairs records, ∃ r, r ∈ records ∧ ∃ i j, i < j ∧ j < r.length ∧
      p = canonPair (r.getD i "") (r.getD j "")) := by
  refine ⟨fun r h => record_pairs_short h, fun r => record_pairs_length r, ?_, ?_⟩
  · rw [skill_pairs, List.flatMap_def, List.length_flatten, List.map_map]
    exact congrArg List.sum
      (List.map_congr_left (fun r _ => record_pairs_length r))
  · intro p hp
    obtain ⟨r, hr, hpr⟩ := mem_skill_pairs hp
    obtain ⟨i, j, hij, hj, he⟩ := mem_record_pairs hpr
    exact ⟨r, hr, i, j, hij, hj, he⟩

/-- C2: on the single record `["go", "go", "rust"]` the pair aggregation
produces exactly the entries `(("go","rust"), 2)` and `(("go","go"), 1)`:
positions (0,1) give the self-pair once and positions (0,2), (1,2) both give
("go","rust"). -/
theorem pair_counts_go_go_rust :
    skill_pairs [["go", "go", "rust"]] =
      [("go", "go"), ("go", "rust"), ("go", "rust")] ∧
    pair_counts [["go", "go", "rust"]] 10 =
      [(("go", "rust"), 2), (("go", "go"), 1)] :=
  ⟨by decide, by decide⟩

/-- C3 fails as stated: a record repeating one keyword yields a pair entry
whose two components are the same string, so strict `keyword_a < keyword_b`
does not hold for every entry. -/
theorem pair_entry_not_strict :
    pair_counts [["go", "go"]] 10 = [(("go", "go"), 1)] ∧
    charListLT "go".toList "go".toList = false :=
  ⟨by decide, by decide⟩

/-- C3 amended: every entry of the pair aggregation satisfies `keyword_a ≤
keyword_b` lexicographically; equality happens exactly when one record holds
the same keyword at two positions, and (a,b)/(b,a) duplicates with distinct
components remain impossible. -/
theorem pair_entries_canonical {records : List (List String)} {n : Int}
    {p : (String × String) × Nat} (hp : p ∈ pair_counts records n) :
    charListLE p.1.1.toList p.1.2.toList = true :=
  pair_entry_le hp

theorem pair_entries_canonical_witness :
    charListLE "go".toList "rust".toList = true :=
  @pair_entries_canonical [["go", "go", "rust"]] 10 (("go", "rust"), 2) (by decide)

/-- C4 fails as stated: `get_top_skills` signals nothing for a non-positive
`n`; it returns the empty list as a normal value (`Counter.most_common(n)`
yields `[]` for every `n ≤ 0`). -/
theorem get_top_skills_nonpos_counterexample :
    get_top_skills [["python"], ["aws"]] 0 = [] ∧
    get_top_skills [["python"], ["aws"]] (-5) = [] :=
  ⟨by decide, by decide⟩

/-- C4 amended: `get_top_skills` does not fail fast on a non-positive `n`:
for every `n ≤ 0` it returns the empty list normally. -/
theorem get_top_skills_nonpos (records : List (List String)) (n : Int)
    (h : n ≤ 0) : get_top_skills records n = [] := by
  rw [get_top_skills, most_common, Int.toNat_of_nonpos h, List.take_zero]

theorem get_top_skills_nonpos_witness :
    (-2 : Int) ≤ 0 ∧ get_top_skills [["python"]] (-2) = [] :=
  ⟨by decide, get_top_skills_nonpos [["python"]] (-2) (by decide)⟩

/-- C5: for every record sequence and every positive `n`, `get_top_skills`
returns at most `n` entries, every returned count is positive, and the counts
are non-increasing along the returned sequence. -/
theorem get_top_skills_shape (records : List (List String)) (n : Int)
    (hn : 0 < n) :
    ((get_top_skills records n).length : Int) ≤ n ∧
    (∀ p ∈ get_top_skills records n, 0 < p.2) ∧
    List.Sorted byCount (get_top_skills records n) := by
  refine ⟨?_, fun p hp => ?_, ?_⟩
  · rw [get_top_skills, most_common_length]
    calc ((min n.toNat (tally records.flatten).length : Nat) : Int)
        ≤ (n.toNat : Int) := by exact_mod_cast Nat.min_le_left _ _
      _ = n := Int.toNat_of_nonneg (le_of_lt hn)
  · exact tally_pos (mem_most_common hp)
  · exact most_common_sorted _ _

theorem get_top_skills_shape_witness :
    ((get_top_skills [["python"], ["python"], ["aws"]] 2).length : Int) ≤ 2 ∧
    (∀ p ∈ get_top_skills [["python"], ["python"], ["aws"]] 2, 0 < p.2) ∧
    List.Sorted byCount (get_top_skills [["python"], ["python"], ["aws"]] 2) :=
  get_top_skills_shape [["python"], ["python"], ["aws"]] 2 (by decide)

/-- C6: calling `get_top_skills` with `n` equal to the number of distinct
keywords returns entries whose counts sum to the total number of keyword
occurrences across all records. -/
theorem get_top_skills_total_count (records : List (List String)) :
    ((get_top_skills records (records.flatten.toFinset.card : Int)).map
      Prod.snd).sum = (records.map List.length).sum := by
  have hlen : (tally records.flatten).length ≤
      ((records.flatten.toFinset.card : Int)).toNat := by
    rw [tally_length, Int.toNat_natCast]
  have hperm := most_common_all hlen
  rw [get_top_skills, (hperm.map Prod.snd).sum_eq, sum_snd_tally,
    List.length_flatten]

/-- C7 fails as stated: with a truncating `n`, two reorderings of the same
multiset of keyword lists can return different keyword-to-count mappings, not
merely a different order of equal-count entries. -/
theorem get_top_skills_perm_counterexample :
    List.Perm [["a"], ["b"]] [["b"], ["a"]] ∧
    get_top_skills [["a"], ["b"]] 1 = [("a", 1)] ∧
    get_top_skills [["b"], ["a"]] 1 = [("b", 1)] ∧
    ("a", 1) ∈ get_top_skills [["a"], ["b"]] 1 ∧
    ("a", 1) ∉ get_top_skills [["b"], ["a"]] 1 :=
  ⟨by decide, by decide, by decide, by decide, by decide⟩

/-- C7 amended: whenever `n` is at least the number of distinct keywords (so
the truncation cuts no tie), two reorderings of the same multiset of keyword
lists return permutations of each other — the same keyword-to-count mapping,
differing at most in the order of entries. -/
theorem get_top_skills_perm_invariant {records1 records2 : List (List String)}
    {n : Int} (hperm : List.Perm records1 records2)
    (hn : (records1.flatten.toFinset.card : Int) ≤ n) :
    List.Perm (get_top_skills records1 n) (get_top_skills records2 n) := by
  have ht : List.Perm (tally records1.flatten) (tally records2.flatten) :=
    tally_perm (flatten_perm hperm)
  have hlen1 : (tally records1.flatten).length ≤ n.toNat := by
    rw [tally_length]
    omega
  have hlen2 : (tally records2.flatten).length ≤ n.toNat := by
    rw [← ht.length_eq]
    exact hlen1
  exact ((most_common_all hlen1).trans ht).trans (most_common_all hlen2).symm

theorem get_top_skills_perm_invariant_witness :
    List.Perm (get_top_skills [["a"], ["b"]] 2) (get_top_skills [["b"], ["a"]] 2) :=
  get_top_skills_perm_invariant (by decide) (by decide)

/-- C8 fails as stated: the `is_remote` flag derived in eda.py is true for
the location "Anywhere" although that location does not contain the substring
"remote" case-insensitively (the dashboard flag is false there). -/
theorem is_remote_eda_counterexample :
    is_remote_eda (some "Anywhere") = true ∧
    (¬ containsCI "Anywhere" "remote") ∧
    is_remote_dashboard (some "Anywhere") = false := by
  refine ⟨by decide, fun h => ?_, by decide⟩
  exact absurd ((listHasSub_iff "remote".toList (lowerChars "Anywhere")).2 h)
    (by decide)

/-- C8 amended: the dashboard `is_remote` flag is true iff the location text
contains "remote" case-insensitively (absent location: false); the eda
`is_remote` flag is instead true iff the location text contains any of
"remote", "anywhere", "global", "worldwide", "work from home", "wfh"
case-insensitively (absent location: false). -/
theorem is_remote_flags_spec (location : Option String) :
    (is_remote_dashboard location = true ↔
      ∃ s, location = some s ∧ containsCI s "remote") ∧
    (is_remote_eda location = true ↔
      ∃ s, location = some s ∧ ∃ k, k ∈ remote_keywords ∧ containsCI s k) := by
  constructor
  · cases location with
    | none =>
      constructor
      · intro h
        exact absurd h (by decide)
      · rintro ⟨s, hs, _⟩
        exact Option.noConfusion hs
    | some s =>
      rw [show is_remote_dashboard (some s) =
          listHasSub "remote".toList (lowerChars s) from rfl,
        listHasSub_iff]
      constructor
      · rintro ⟨u, v, h⟩
        exact ⟨s, rfl, u, v, h⟩
      · rintro ⟨s', hs, hc⟩
        injection hs with hs
        rw [hs]
        exact hc
  · cases location with
    | none =>
      constructor
      · intro h
        exact Bool.noConfusion h
      · rintro ⟨s, hs, _⟩
        exact Option.noConfusion hs
    | some s =>
      rw [show is_remote_eda (some s) =
          remote_keywords.any (fun k => listHasSub k.toList (lowerChars s)) from rfl,
        List.any_eq_true]
      constructor
      · rintro ⟨k, hk, hb⟩
        exact ⟨s, rfl, k, hk, (listHasSub_iff _ _).1 hb⟩
      · rintro ⟨s', hs, k, hk, hc⟩
        injection hs with hs
        rw [hs]
        exact ⟨k, hk, (listHasSub_iff _ _).2 hc⟩

/-- C9: for every record sequence and positive `n`, the length of the
`get_top_skills` result is exactly the minimum of `n` and the number of
distinct keywords occurring across all records. -/
theorem get_top_skills_length (records : List (List String)) (n : Int)
    (hn : 0 < n) :
    (get_top_skills records n).length =
      min n.toNat records.flatten.toFinset.card := by
  rw [get_top_skills, most_common_length, tally_length]

theorem get_top_skills_length_witness :
    (0 : Int) < 3 ∧
    (get_top_skills [["python", "aws"], ["python"]] 3).length =
      min (3 : Int).toNat [["python", "aws"], ["python"]].flatten.toFinset.card :=
  ⟨by decide, get_top_skills_length [["python", "aws"], ["python"]] 3 (by decide)⟩

/-- C10: `get_top_skills` is total over every integer `n`: the result is
always a list of at most as many entries as there are distinct keywords, and
for `n ≤ 0` the result is the empty list. -/
theorem get_top_skills_total_in_n (records : List (List String)) (n : Int) :
    (get_top_skills records n).length ≤ records.flatten.toFinset.card ∧
    (n ≤ 0 → get_top_skills records n = []) := by
  constructor
  · rw [get_top_skills, most_common_length, tally_length]
    exact Nat.min_le_right _ _
  · intro h
    rw [get_top_skills, most_common, Int.toNat_of_nonpos h, List.take_zero]

end TechDash
